import Mathlib

/-!
Shallow embedding of the task-store module of `src/app.py` (class `TodoApp`)
and proofs about its operations.

Modelling conventions:
* a task record (the dict built in `add_task`) becomes the structure `Task`;
  timestamps (`datetime.now().isoformat()`) are abstracted as natural numbers
  passed in as a `now` argument;
* the persisted JSON file is modelled by `FileContent` (absent, unparsable, or
  holding a list of tasks); `save_todos` overwrites it with the current list;
* each method of the Python class becomes a function from the app state (and
  the method arguments) to the new app state together with the observable
  outcome (the printed message class);
* Python's `list.sort(key=...)` is a stable sort by the key; it is modelled by
  `List.mergeSort` with the boolean comparison on the same key, which is also
  stable, and a stable sort of a list under a total preorder is unique.
-/

namespace Todo

/-- One task record, with the exact fields of the dict created in `add_task`. -/
structure Task where
  id : Nat
  task : String
  completed : Bool
  priority : String
  created_at : Nat
  completed_at : Option Nat
deriving Repr, DecidableEq

/-- Contents of the persisted file `todos.json` as the program observes them:
missing, present but not valid JSON, or a stored list of task records. -/
inductive FileContent
  | absent
  | malformed
  | stored (todos : List Task)
deriving Repr, DecidableEq

/-- `load_todos`: returns the stored list; if the file is absent (the
`os.path.exists` guard or `FileNotFoundError`) or not valid JSON
(`json.JSONDecodeError`), returns the empty list. -/
def load_todos : FileContent → List Task
  | .absent => []
  | .malformed => []
  | .stored ts => ts

/-- The in-memory state of the `TodoApp` class: the `self.todos` list and the
contents of the persisted file. -/
structure TodoApp where
  todos : List Task
  file : FileContent
deriving Repr, DecidableEq

/-- `save_todos`: rewrites the whole file with the current list. -/
def save_todos (app : TodoApp) : TodoApp :=
  { app with file := .stored app.todos }

/-- A freshly constructed app with no pre-existing file:
`self.todos = self.load_todos()` on an absent file. -/
def init_app : TodoApp :=
  { todos := load_todos .absent, file := .absent }

/-- `add_task`: appends a new task with `id = len(self.todos) + 1`,
`completed = False`, `completed_at = None`, lower-cased priority, then saves. -/
def add_task (app : TodoApp) (task : String) (priority : String) (now : Nat) :
    TodoApp :=
  let new_task : Task :=
    { id := app.todos.length + 1
      task := task
      completed := false
      priority := priority.toLower
      created_at := now
      completed_at := none }
  save_todos { app with todos := app.todos ++ [new_task] }

/-- Outcome of `complete_task`: the three message classes it can print. -/
inductive CompleteResult
  | ok
  | alreadyCompleted
  | notFound
deriving Repr, DecidableEq

/-- The `for task in self.todos` loop of `complete_task`: finds the first task
with the given id; `none` when absent; otherwise the (possibly) updated list
together with the already-completed flag. -/
def complete_loop (todos : List Task) (task_id : Nat) (now : Nat) :
    Option (List Task × Bool) :=
  match todos with
  | [] => none
  | t :: ts =>
    if t.id = task_id then
      if t.completed then
        some (t :: ts, true)
      else
        some ({ t with completed := true, completed_at := some now } :: ts, false)
    else
      match complete_loop ts task_id now with
      | none => none
      | some (ts2, b) => some (t :: ts2, b)

/-- `complete_task`: not found prints an error; a first match that is already
completed prints a warning and does not save; otherwise the task is updated in
place and the store is saved. -/
def complete_task (app : TodoApp) (task_id : Nat) (now : Nat) :
    TodoApp × CompleteResult :=
  match complete_loop app.todos task_id now with
  | none => (app, .notFound)
  | some (_, true) => (app, .alreadyCompleted)
  | some (ts2, false) => (save_todos { app with todos := ts2 }, .ok)

/-- Outcome of `delete_task`. -/
inductive DeleteResult
  | ok (deleted : Task)
  | notFound
deriving Repr, DecidableEq

/-- The `for i, task in enumerate(self.todos)` loop of `delete_task`: removes
the first task with the given id, returning the remaining list and the popped
task, or `none` when absent. -/
def delete_loop (todos : List Task) (task_id : Nat) :
    Option (List Task × Task) :=
  match todos with
  | [] => none
  | t :: ts =>
    if t.id = task_id then
      some (ts, t)
    else
      match delete_loop ts task_id with
      | none => none
      | some (ts2, d) => some (t :: ts2, d)

/-- `delete_task`: pops the first task with the given id and saves; prints an
error when absent. -/
def delete_task (app : TodoApp) (task_id : Nat) : TodoApp × DeleteResult :=
  match delete_loop app.todos task_id with
  | none => (app, .notFound)
  | some (ts2, d) => (save_todos { app with todos := ts2 }, .ok d)

/-- The sort key of `view_tasks`: `priority_order.get(x['priority'], 2)` with
the dict high 1, medium 2, low 3 (unknown strings default to 2). -/
def priority_order (p : String) : Nat :=
  if p = "high" then 1 else if p = "medium" then 2 else if p = "low" then 3 else 2

/-- The comparison used by the stable sort in `view_tasks`. -/
def priority_le (a b : Task) : Bool :=
  decide (priority_order a.priority ≤ priority_order b.priority)

/-- `view_tasks`: returns the new app state and the list of tasks displayed,
in display order.  With `show_completed = True` the Python code binds
`tasks_to_show` to `self.todos` itself (no copy), so the in-place
`tasks_to_show.sort(...)` reorders the stored list; with
`show_completed = False` it sorts a fresh filtered list.  Nothing is saved. -/
def view_tasks (app : TodoApp) (show_completed : Bool) : TodoApp × List Task :=
  if app.todos.isEmpty then
    (app, [])
  else
    let tasks_to_show :=
      if show_completed then app.todos
      else app.todos.filter (fun t => !t.completed)
    if tasks_to_show.isEmpty then
      (app, [])
    else
      let sorted := tasks_to_show.mergeSort priority_le
      if show_completed then ({ app with todos := sorted }, sorted)
      else (app, sorted)

/-- The numbers printed by `get_stats`; the completion rate is a rational
(Python float arithmetic is exact on these small values) and is `none` when it
is not printed (`total = 0`). -/
structure Stats where
  total : Nat
  completed : Nat
  pending : Nat
  completion_rate : Option ℚ
deriving Repr, DecidableEq

/-- `get_stats`: total, completed, pending counts and the completion rate. -/
def get_stats (app : TodoApp) : Stats :=
  let total := app.todos.length
  let completed := (app.todos.filter (fun t => t.completed)).length
  let pending := total - completed
  { total := total
    completed := completed
    pending := pending
    completion_rate :=
      if 0 < total then some ((completed : ℚ) / (total : ℚ) * 100) else none }

/-- Python `str.split()` with no separator: split on whitespace, dropping
empty pieces. -/
def split_words (s : String) : List String :=
  (s.split Char.isWhitespace).filter (fun w => !w.isEmpty)

/-- The priority names recognised by the command loop. -/
def add_priorities : List String := ["high", "medium", "low"]

/-- Outcome of the `add <text> [priority]` branch of the command loop. -/
inductive AddCommandResult
  | added (task : String) (priority : String)
  | emptyDescription
deriving Repr, DecidableEq

/-- The `add ` branch of the command loop (`main`): splits the text after
`add ` into words, rejects an empty word list, strips a trailing priority
word, and calls `add_task`. -/
def handle_add (app : TodoApp) (rest : String) (now : Nat) :
    TodoApp × AddCommandResult :=
  match split_words rest with
  | [] => (app, .emptyDescription)
  | p :: ps =>
    let parts := p :: ps
    if parts.length > 1 && add_priorities.contains (parts.getLastD "") then
      let priority := parts.getLastD ""
      let task := " ".intercalate parts.dropLast
      (add_task app task priority now, .added task priority)
    else
      let task := " ".intercalate parts
      (add_task app task "medium" now, .added task "medium")

/-- The store-level operations a session can perform, with the time at which
a mutating operation runs. -/
inductive Op
  | add (task : String) (priority : String) (now : Nat)
  | complete (task_id : Nat) (now : Nat)
  | delete (task_id : Nat)
  | view (show_completed : Bool)

/-- Apply one operation to the app state, discarding the displayed output. -/
def apply_op (app : TodoApp) : Op → TodoApp
  | .add t p n => add_task app t p n
  | .complete i n => (complete_task app i n).1
  | .delete i => (delete_task app i).1
  | .view b => (view_tasks app b).1

/-- Run a sequence of operations from the freshly constructed empty app. -/
def run_ops (ops : List Op) : TodoApp :=
  ops.foldl apply_op init_app

/-- The per-task invariant: `completed_at` is set iff `completed` is true. -/
def inv_task (t : Task) : Bool :=
  t.completed_at.isSome == t.completed

/-- The store invariant: every task satisfies `inv_task`. -/
def inv_store (ts : List Task) : Bool :=
  ts.all inv_task

/-- The operation sequence of claim C3: add, add, delete 1, add. -/
def collide_ops : List Op :=
  [.add "a" "medium" 0, .add "b" "medium" 1, .delete 1, .add "c" "medium" 2]

/-- C3: starting from the empty store, the sequence add, add, delete(1), add
leaves two distinct tasks carrying the same id 2: ids assigned as
`len(self.todos) + 1` do not stay unique across deletes. -/
theorem ids_collide_after_delete :
    ((run_ops collide_ops).todos.map Task.id = [2, 2]) ∧
      ¬ ((run_ops collide_ops).todos.map Task.id).Nodup := by
  constructor
  · rfl
  · decide

/-- C9: `load_todos` returns the stored collection when the file exists and
parses, and the empty collection when the file is absent or unparsable; it is
a total function, so no error reaches the caller. -/
theorem load_todos_spec :
    load_todos .absent = [] ∧ load_todos .malformed = [] ∧
      ∀ ts : List Task, load_todos (.stored ts) = ts := by
  refine ⟨rfl, rfl, fun ts => rfl⟩

/-- C5: `add_task` appends exactly one task at the end of the store, with
id = current count + 1, the given description, `completed = false`,
`completed_at` unset and `created_at = now`, leaves every pre-existing task
unchanged (the old list is a prefix of the new one), and persists the full
collection; the Python default for the priority argument is `"medium"`. -/
theorem add_task_spec (app : TodoApp) (task priority : String) (now : Nat) :
    (add_task app task priority now).todos =
        app.todos ++
          [{ id := app.todos.length + 1
             task := task
             completed := false
             priority := priority.toLower
             created_at := now
             completed_at := none }] ∧
      (add_task app task priority now).file =
        .stored (add_task app task priority now).todos := by
  exact ⟨rfl, rfl⟩

/-- The `complete_task` loop finds nothing iff no task has the id. -/
lemma complete_loop_none_iff (todos : List Task) (task_id now : Nat) :
    complete_loop todos task_id now = none ↔ ∀ t ∈ todos, t.id ≠ task_id := by
  induction todos with
  | nil => simp [complete_loop]
  | cons a ts ih =>
    simp only [complete_loop, List.mem_cons, forall_eq_or_imp]
    by_cases h : a.id = task_id
    · simp only [if_pos h]
      refine iff_of_false ?_ ?_
      · intro hc
        split at hc <;> exact Option.noConfusion hc
      · intro hall
        exact hall.1 h
    · simp only [if_neg h]
      cases hrec : complete_loop ts task_id now with
      | none =>
        rw [hrec] at ih
        exact iff_of_true rfl ⟨h, ih.mp rfl⟩
      | some x =>
        refine iff_of_false (fun hc => Option.noConfusion hc) ?_
        intro hall
        have hnone := ih.mpr hall.2
        rw [hrec] at hnone
        exact Option.noConfusion hnone

/-- If the first task with the id is already completed, the loop returns the
unchanged list with the already-completed flag. -/
lemma complete_loop_found_completed (todos : List Task) (task_id now : Nat)
    (t : Task) (hf : todos.find? (fun u => u.id == task_id) = some t)
    (hc : t.completed = true) :
    complete_loop todos task_id now = some (todos, true) := by
  induction todos with
  | nil => simp at hf
  | cons a ts ih =>
    by_cases h : a.id = task_id
    · rw [List.find?_cons_of_pos _ (by simpa using h)] at hf
      obtain rfl : a = t := by injection hf
      simp [complete_loop, h, hc]
    · rw [List.find?_cons_of_neg _ (by simpa using h)] at hf
      simp [complete_loop, h, ih hf]

/-- If the first task with the id is not yet completed, the loop updates
exactly that task in place. -/
lemma complete_loop_found_pending (todos : List Task) (task_id now : Nat)
    (t : Task) (hf : todos.find? (fun u => u.id == task_id) = some t)
    (hc : t.completed = false) :
    ∃ l₁ l₂, todos = l₁ ++ t :: l₂ ∧ (∀ u ∈ l₁, u.id ≠ task_id) ∧
      complete_loop todos task_id now =
        some (l₁ ++ { t with completed := true, completed_at := some now } :: l₂,
          false) := by
  induction todos with
  | nil => simp at hf
  | cons a ts ih =>
    by_cases h : a.id = task_id
    · rw [List.find?_cons_of_pos _ (by simpa using h)] at hf
      obtain rfl : a = t := by injection hf
      exact ⟨[], ts, rfl, by simp, by simp [complete_loop, h, hc]⟩
    · rw [List.find?_cons_of_neg _ (by simpa using h)] at hf
      obtain ⟨l₁, l₂, heq, hl₁, hloop⟩ := ih hf
      refine ⟨a :: l₁, l₂, by rw [heq]; rfl, ?_, ?_⟩
      · intro u hu
        rcases List.mem_cons.mp hu with rfl | hu
        · exact h
        · exact hl₁ u hu
      · simp [complete_loop, h, hloop]

/-- `complete_task` reports not-found exactly when its loop finds nothing. -/
lemma complete_task_notFound_iff (app : TodoApp) (task_id now : Nat) :
    (complete_task app task_id now).2 = CompleteResult.notFound ↔
      complete_loop app.todos task_id now = none := by
  cases hrec : complete_loop app.todos task_id now with
  | none => simp [complete_task, hrec]
  | some x =>
    obtain ⟨ts2, b⟩ := x
    cases b <;> simp [complete_task, hrec]

/-- C1: `complete_task` fails with not-found iff no task in the store has the
id (and then changes nothing); if the first task with the id is already
completed it reports already-completed and leaves the task, the store and the
file exactly as they were; otherwise it sets `completed := true` and
`completed_at := now` on that first task only and persists the new store. -/
theorem complete_task_spec (app : TodoApp) (task_id now : Nat) :
    ((complete_task app task_id now).2 = .notFound ↔
        ∀ t ∈ app.todos, t.id ≠ task_id) ∧
    ((complete_task app task_id now).2 = .notFound →
        (complete_task app task_id now).1 = app) ∧
    (∀ t, app.todos.find? (fun u => u.id == task_id) = some t →
      (t.completed = true →
          complete_task app task_id now = (app, .alreadyCompleted)) ∧
      (t.completed = false →
          ∃ l₁ l₂, app.todos = l₁ ++ t :: l₂ ∧ (∀ u ∈ l₁, u.id ≠ task_id) ∧
            complete_task app task_id now =
              (⟨l₁ ++ { t with completed := true, completed_at := some now } :: l₂,
                .stored (l₁ ++
                  { t with completed := true, completed_at := some now } :: l₂)⟩,
                .ok))) := by
  refine ⟨?_, ?_, ?_⟩
  · rw [complete_task_notFound_iff]
    exact complete_loop_none_iff app.todos task_id now
  · intro hnf
    have hnone := (complete_task_notFound_iff app task_id now).mp hnf
    simp [complete_task, hnone]
  · intro t hf
    constructor
    · intro hc
      have hloop := complete_loop_found_completed app.todos task_id now t hf hc
      simp [complete_task, hloop]
    · intro hc
      obtain ⟨l₁, l₂, heq, hl₁, hloop⟩ :=
        complete_loop_found_pending app.todos task_id now t hf hc
      exact ⟨l₁, l₂, heq, hl₁, by simp [complete_task, hloop, save_todos]⟩

/-- A one-task store whose task is still pending. -/
def w_pending : Task :=
  { id := 1, task := "a", completed := false, priority := "medium",
    created_at := 0, completed_at := none }

/-- A one-task store whose task is already completed. -/
def w_done : Task :=
  { id := 1, task := "a", completed := true, priority := "medium",
    created_at := 0, completed_at := some 3 }

/-- App holding just `w_pending`. -/
def w_app_pending : TodoApp := { todos := [w_pending], file := .stored [w_pending] }

/-- App holding just `w_done`. -/
def w_app_done : TodoApp := { todos := [w_done], file := .stored [w_done] }

/-- Witness for C1: completing an already-completed task changes nothing and
reports already-completed; completing a pending task reports success. -/
theorem complete_task_spec_witness :
    complete_task w_app_done 1 7 = (w_app_done, .alreadyCompleted) ∧
      (complete_task w_app_pending 1 7).2 = .ok := by
  constructor
  · exact ((complete_task_spec w_app_done 1 7).2.2 w_done (by rfl)).1 rfl
  · obtain ⟨l₁, l₂, -, -, heq⟩ :=
      ((complete_task_spec w_app_pending 1 7).2.2 w_pending (by rfl)).2 rfl
    rw [heq]

/-- The `delete_task` loop finds nothing iff no task has the id. -/
lemma delete_loop_none_iff (todos : List Task) (task_id : Nat) :
    delete_loop todos task_id = none ↔ ∀ t ∈ todos, t.id ≠ task_id := by
  induction todos with
  | nil => simp [delete_loop]
  | cons a ts ih =>
    simp only [delete_loop, List.mem_cons, forall_eq_or_imp]
    by_cases h : a.id = task_id
    · simp only [if_pos h]
      exact iff_of_false (fun hc => Option.noConfusion hc) (fun hall => hall.1 h)
    · simp only [if_neg h]
      cases hrec : delete_loop ts task_id with
      | none =>
        rw [hrec] at ih
        exact iff_of_true rfl ⟨h, ih.mp rfl⟩
      | some x =>
        refine iff_of_false (fun hc => Option.noConfusion hc) ?_
        intro hall
        have hnone := ih.mpr hall.2
        rw [hrec] at hnone
        exact Option.noConfusion hnone

/-- When the id is present, the loop removes exactly the first task with the
id and keeps everything else in order. -/
lemma delete_loop_found (todos : List Task) (task_id : Nat) (t : Task)
    (hf : todos.find? (fun u => u.id == task_id) = some t) :
    ∃ l₁ l₂, todos = l₁ ++ t :: l₂ ∧ (∀ u ∈ l₁, u.id ≠ task_id) ∧
      delete_loop todos task_id = some (l₁ ++ l₂, t) := by
  induction todos with
  | nil => simp at hf
  | cons a ts ih =>
    by_cases h : a.id = task_id
    · rw [List.find?_cons_of_pos _ (by simpa using h)] at hf
      obtain rfl : a = t := by injection hf
      exact ⟨[], ts, rfl, by simp, by simp [delete_loop, h]⟩
    · rw [List.find?_cons_of_neg _ (by simpa using h)] at hf
      obtain ⟨l₁, l₂, heq, hl₁, hloop⟩ := ih hf
      refine ⟨a :: l₁, l₂, by rw [heq]; rfl, ?_, ?_⟩
      · intro u hu
        rcases List.mem_cons.mp hu with rfl | hu
        · exact h
        · exact hl₁ u hu
      · simp [delete_loop, h, hloop]

/-- `delete_task` reports not-found exactly when its loop finds nothing. -/
lemma delete_task_notFound_iff (app : TodoApp) (task_id : Nat) :
    (delete_task app task_id).2 = DeleteResult.notFound ↔
      delete_loop app.todos task_id = none := by
  cases hrec : delete_loop app.todos task_id with
  | none => simp [delete_task, hrec]
  | some x =>
    obtain ⟨ts2, d⟩ := x
    simp [delete_task, hrec]

/-- C8: `delete_task` fails with not-found iff no task in the store has the
id (and then changes nothing); otherwise it removes exactly the first task
whose id matches, keeps every other task unchanged and in the same relative
order, and persists the new store. -/
theorem delete_task_spec (app : TodoApp) (task_id : Nat) :
    ((delete_task app task_id).2 = .notFound ↔
        ∀ t ∈ app.todos, t.id ≠ task_id) ∧
    ((delete_task app task_id).2 = .notFound →
        (delete_task app task_id).1 = app) ∧
    (∀ t, app.todos.find? (fun u => u.id == task_id) = some t →
      ∃ l₁ l₂, app.todos = l₁ ++ t :: l₂ ∧ (∀ u ∈ l₁, u.id ≠ task_id) ∧
        delete_task app task_id =
          (⟨l₁ ++ l₂, .stored (l₁ ++ l₂)⟩, .ok t)) := by
  refine ⟨?_, ?_, ?_⟩
  · rw [delete_task_notFound_iff]
    exact delete_loop_none_iff app.todos task_id
  · intro hnf
    have hnone := (delete_task_notFound_iff app task_id).mp hnf
    simp [delete_task, hnone]
  · intro t hf
    obtain ⟨l₁, l₂, heq, hl₁, hloop⟩ := delete_loop_found app.todos task_id t hf
    exact ⟨l₁, l₂, heq, hl₁, by simp [delete_task, hloop, save_todos]⟩

/-- Witness for C8: deleting the only task empties the store and persists it;
deleting an absent id leaves the store unchanged. -/
theorem delete_task_spec_witness :
    delete_task w_app_pending 1 = (⟨[], .stored []⟩, .ok w_pending) ∧
      (delete_task w_app_pending 2).1 = w_app_pending := by
  constructor
  · obtain ⟨l₁, l₂, heq, -, hres⟩ :=
      (delete_task_spec w_app_pending 1).2.2 w_pending (by rfl)
    have hl₁ : l₁ = [] := by
      cases l₁ with
      | nil => rfl
      | cons x xs => simp [w_app_pending] at heq
    have hl₂ : l₂ = [] := by
      rw [hl₁] at heq
      simp [w_app_pending] at heq
      exact heq
    rw [hl₁, hl₂] at hres
    simpa using hres
  · exact (delete_task_spec w_app_pending 2).2.1 (by
      exact (delete_task_spec w_app_pending 2).1.mpr (by decide))

/-- The sort comparison is transitive. -/
lemma priority_le_trans :
    ∀ a b c : Task, priority_le a b → priority_le b c → priority_le a c := by
  intro a b c hab hbc
  simp only [priority_le, decide_eq_true_eq] at hab hbc ⊢
  exact Nat.le_trans hab hbc

/-- The sort comparison is total. -/
lemma priority_le_total :
    ∀ a b : Task, (priority_le a b || priority_le b a) = true := by
  intro a b
  simp only [priority_le, Bool.or_eq_true, decide_eq_true_eq]
  exact Nat.le_total _ _

/-- The app state after `view_tasks`: unchanged when `show_completed` is
false, with the stored list sorted in place when it is true. -/
lemma view_tasks_fst (app : TodoApp) (b : Bool) :
    (view_tasks app b).1 =
      if b then { app with todos := app.todos.mergeSort priority_le }
      else app := by
  obtain ⟨todos, fc⟩ := app
  cases b with
  | false =>
    rw [if_neg Bool.false_ne_true]
    by_cases h1 : todos.isEmpty
    · simp [view_tasks, h1]
    · by_cases h2 : (todos.filter (fun t => !t.completed)).isEmpty
      · simp [view_tasks, h1, h2]
      · simp [view_tasks, h1, h2]
  | true =>
    rw [if_pos rfl]
    by_cases h1 : todos.isEmpty
    · have h : todos = [] := List.isEmpty_iff.mp h1
      subst h
      simp [view_tasks]
    · simp [view_tasks, h1]

/-- The list displayed by `view_tasks` is the stable sort by priority rank of
the (possibly filtered) stored list. -/
lemma view_tasks_snd (app : TodoApp) (b : Bool) :
    (view_tasks app b).2 =
      (if b then app.todos
       else app.todos.filter (fun t => !t.completed)).mergeSort priority_le := by
  obtain ⟨todos, fc⟩ := app
  cases b with
  | false =>
    rw [if_neg Bool.false_ne_true]
    by_cases h1 : todos.isEmpty
    · have h : todos = [] := List.isEmpty_iff.mp h1
      subst h
      simp [view_tasks]
    · by_cases h2 : (todos.filter (fun t => !t.completed)).isEmpty
      · have h : todos.filter (fun t => !t.completed) = [] := List.isEmpty_iff.mp h2
        simp [view_tasks, h1, h2, h]
      · simp [view_tasks, h1, h2]
  | true =>
    rw [if_pos rfl]
    by_cases h1 : todos.isEmpty
    · have h : todos = [] := List.isEmpty_iff.mp h1
      subst h
      simp [view_tasks]
    · simp [view_tasks, h1]

/-- Stability of the sort: filtering the sorted list by a predicate that
forces the comparison to hold pairwise (for instance, equality of priority)
gives back the filtered input, in input order. -/
lemma filter_mergeSort_stable (l : List Task) (p : Task → Bool)
    (hp : ∀ a b : Task, p a = true → p b = true → priority_le a b = true) :
    (l.mergeSort priority_le).filter p = l.filter p := by
  have hpair : (l.filter p).Pairwise (fun a b => priority_le a b = true) := by
    apply List.pairwise_of_forall_mem_list
    intro a ha b hb
    exact hp a b (List.of_mem_filter ha) (List.of_mem_filter hb)
  have hsub : List.Sublist (l.filter p) (l.mergeSort priority_le) :=
    List.sublist_mergeSort priority_le_trans priority_le_total hpair
      (List.filter_sublist l)
  have heq : (l.filter p).filter p = l.filter p :=
    List.filter_eq_self.mpr (fun a ha => List.of_mem_filter ha)
  have hsub2 : List.Sublist (l.filter p) ((l.mergeSort priority_le).filter p) := by
    have h := hsub.filter p
    rwa [heq] at h
  have hperm : List.Perm ((l.mergeSort priority_le).filter p) (l.filter p) :=
    (List.mergeSort_perm l priority_le).filter p
  exact (hsub2.eq_of_length hperm.length_eq.symm).symm

/-- A two-task store whose tasks are out of priority order. -/
def t_low1 : Task :=
  { id := 1, task := "a", completed := false, priority := "low",
    created_at := 0, completed_at := none }

/-- The high-priority second task of the misordered store. -/
def t_high2 : Task :=
  { id := 2, task := "b", completed := false, priority := "high",
    created_at := 0, completed_at := none }

/-- A store holding `t_low1` before `t_high2`. -/
def misordered_app : TodoApp :=
  { todos := [t_low1, t_high2], file := .stored [t_low1, t_high2] }

/-- Counterexample to C2 as stated: viewing with `show_completed = true`
reorders the stored in-memory sequence (the in-place sort aliases
`self.todos`), so listing is not read-only on the store. -/
theorem view_tasks_mutates_store :
    (view_tasks misordered_app true).1.todos ≠ misordered_app.todos := by
  have h : (view_tasks misordered_app true).1.todos = [t_high2, t_low1] := by
    rw [view_tasks_fst, if_pos rfl]
    show misordered_app.todos.mergeSort priority_le = [t_high2, t_low1]
    simp [misordered_app, List.mergeSort, List.splitInTwo, List.splitAt,
      List.splitAt.go, List.merge, priority_le, priority_order, t_low1, t_high2]
  rw [h]
  decide

/-- C2 amended: `view_tasks` never touches the persisted file; with
`show_completed = false` it also leaves the stored sequence unchanged, but
with `show_completed = true` it replaces the stored sequence by its stable
priority-sorted reordering. -/
theorem view_tasks_frame (app : TodoApp) (b : Bool) :
    (view_tasks app b).1.file = app.file ∧
      (view_tasks app false).1.todos = app.todos ∧
      (view_tasks app true).1.todos = app.todos.mergeSort priority_le := by
  refine ⟨?_, ?_, ?_⟩
  · rw [view_tasks_fst]
    cases b <;> simp
  · rw [view_tasks_fst]
    simp
  · rw [view_tasks_fst]
    simp

/-- The store holding three pending tasks with priorities low, high, medium:
the fields `add_task` assigns to tasks added in that order to an empty store
(ids 1, 2, 3; lower-cased priorities; `completed_at` unset), with the file
persisted by the last add. -/
def c4_todos : List Task :=
  [{ id := 1, task := "t1", completed := false, priority := "low",
     created_at := 0, completed_at := none },
   { id := 2, task := "t2", completed := false, priority := "high",
     created_at := 1, completed_at := none },
   { id := 3, task := "t3", completed := false, priority := "medium",
     created_at := 2, completed_at := none }]

/-- The app state holding `c4_todos`. -/
def c4_app : TodoApp :=
  { todos := c4_todos, file := .stored c4_todos }

/-- C4: the displayed list is ordered by priority rank (high 1, medium 2,
low 3), tasks of equal priority keep their relative order from the stored
sequence, and on tasks added with priorities low, high, medium the display
order is high, medium, low. -/
theorem view_tasks_sorted_stable (app : TodoApp) (b : Bool) :
    ((view_tasks app b).2.Pairwise
        (fun a c => priority_order a.priority ≤ priority_order c.priority)) ∧
      (∀ p : String,
        (view_tasks app b).2.filter (fun t => t.priority == p) =
          (if b then app.todos
           else app.todos.filter (fun t => !t.completed)).filter
            (fun t => t.priority == p)) ∧
      ((view_tasks c4_app true).2.map (fun t => t.priority) =
        ["high", "medium", "low"]) := by
  refine ⟨?_, ?_, ?_⟩
  · rw [view_tasks_snd]
    have h := List.sorted_mergeSort priority_le_trans priority_le_total
      (if b then app.todos else app.todos.filter (fun t => !t.completed))
    exact h.imp (fun hab => by simpa [priority_le] using hab)
  · intro p
    rw [view_tasks_snd]
    apply filter_mergeSort_stable
    intro a c ha hc
    simp only [beq_iff_eq] at ha hc
    simp [priority_le, ha, hc]
  · rw [view_tasks_snd, if_pos rfl]
    simp [c4_app, c4_todos, List.mergeSort, List.splitInTwo, List.splitAt,
      List.splitAt.go, List.merge, priority_le, priority_order]

/-- `add_task` preserves the completed-iff-timestamped invariant: the new
task has `completed = false` and `completed_at = none`. -/
lemma add_task_inv (app : TodoApp) (task priority : String) (now : Nat)
    (hinv : inv_store app.todos = true) :
    inv_store (add_task app task priority now).todos = true := by
  simp only [add_task, save_todos]
  simp only [inv_store, List.all_append, List.all_cons, List.all_nil,
    Bool.and_eq_true] at hinv ⊢
  exact ⟨hinv, by simp [inv_task], trivial⟩

/-- `complete_task` preserves the invariant: it sets `completed` and
`completed_at` together, or changes nothing. -/
lemma complete_task_inv (app : TodoApp) (task_id now : Nat)
    (hinv : inv_store app.todos = true) :
    inv_store (complete_task app task_id now).1.todos = true := by
  cases hf : app.todos.find? (fun u => u.id == task_id) with
  | none =>
    have hnone : complete_loop app.todos task_id now = none := by
      rw [complete_loop_none_iff]
      intro t ht heq
      have hne := List.find?_eq_none.mp hf t ht
      simp [heq] at hne
    simp [complete_task, hnone, hinv]
  | some t =>
    by_cases hc : t.completed
    · have hloop := complete_loop_found_completed app.todos task_id now t hf hc
      simp [complete_task, hloop, hinv]
    · have hc2 : t.completed = false := by simpa using hc
      obtain ⟨l₁, l₂, heq, -, hloop⟩ :=
        complete_loop_found_pending app.todos task_id now t hf hc2
      rw [heq] at hinv
      simp only [complete_task, hloop, save_todos]
      simp only [inv_store, List.all_append, List.all_cons,
        Bool.and_eq_true] at hinv ⊢
      exact ⟨hinv.1, by simp [inv_task], hinv.2.2⟩

/-- `delete_task` preserves the invariant: it only removes a task. -/
lemma delete_task_inv (app : TodoApp) (task_id : Nat)
    (hinv : inv_store app.todos = true) :
    inv_store (delete_task app task_id).1.todos = true := by
  cases hf : app.todos.find? (fun u => u.id == task_id) with
  | none =>
    have hnone : delete_loop app.todos task_id = none := by
      rw [delete_loop_none_iff]
      intro t ht heq
      have hne := List.find?_eq_none.mp hf t ht
      simp [heq] at hne
    simp [delete_task, hnone, hinv]
  | some t =>
    obtain ⟨l₁, l₂, heq, -, hloop⟩ := delete_loop_found app.todos task_id t hf
    rw [heq] at hinv
    simp only [delete_task, hloop, save_todos]
    simp only [inv_store, List.all_append, List.all_cons,
      Bool.and_eq_true] at hinv ⊢
    exact ⟨hinv.1, hinv.2.2⟩

/-- `view_tasks` preserves the invariant: it only reorders the store. -/
lemma view_tasks_inv (app : TodoApp) (b : Bool)
    (hinv : inv_store app.todos = true) :
    inv_store (view_tasks app b).1.todos = true := by
  rw [view_tasks_fst]
  cases b with
  | false =>
    rw [if_neg Bool.false_ne_true]
    exact hinv
  | true =>
    rw [if_pos rfl]
    simp only [inv_store, List.all_eq_true] at hinv ⊢
    intro t ht
    exact hinv t (List.mem_mergeSort.mp ht)

/-- Every single operation preserves the invariant. -/
lemma apply_op_inv (app : TodoApp) (op : Op)
    (hinv : inv_store app.todos = true) :
    inv_store (apply_op app op).todos = true := by
  cases op with
  | add t p n => exact add_task_inv app t p n hinv
  | complete i n => exact complete_task_inv app i n hinv
  | delete i => exact delete_task_inv app i hinv
  | view b => exact view_tasks_inv app b hinv

/-- Folding any operation sequence over an invariant state keeps it. -/
lemma foldl_apply_op_inv (ops : List Op) (app : TodoApp)
    (hinv : inv_store app.todos = true) :
    inv_store (ops.foldl apply_op app).todos = true := by
  induction ops generalizing app with
  | nil => simpa using hinv
  | cons op ops ih => exact ih _ (apply_op_inv app op hinv)

/-- C7: in every state reachable from the empty store by add, complete,
delete (and list) operations, every task has `completed_at` set exactly when
its `completed` flag is true. -/
theorem completed_at_iff_completed (ops : List Op) :
    ((run_ops ops).todos.all fun t => t.completed_at.isSome == t.completed)
      = true :=
  foldl_apply_op_inv ops init_app rfl

/-- Counterexample to C6 as stated: `add_task` itself performs no input
validation, so called with an empty description it creates (and persists) a
task whose description is empty, instead of failing and leaving the store
unchanged. -/
theorem add_task_empty_description :
    (add_task init_app "" "medium" 0).todos.map (fun t => t.task) = [""] ∧
      add_task init_app "" "medium" 0 ≠ init_app := by
  constructor
  · rfl
  · intro h
    have hlen := congrArg (fun a => a.todos.length) h
    simp [add_task, save_todos, init_app, load_todos] at hlen

/-- C6 amended: the empty-description check lives in the command loop, not in
`add_task`: an `add` command whose text contains no words is rejected with an
error message before `add_task` is called, leaving the store and the file
unchanged. -/
theorem handle_add_empty_guard (app : TodoApp) (rest : String) (now : Nat)
    (h : split_words rest = []) :
    handle_add app rest now = (app, .emptyDescription) := by
  simp [handle_add, h]

/-- Witness for the C6 guard: the empty text after `add ` is rejected and the
store is unchanged. -/
theorem handle_add_empty_guard_witness :
    split_words "" = [] ∧
      handle_add init_app "" 0 = (init_app, .emptyDescription) := by
  have h : split_words "" = [] := by
    simp [split_words, String.split_of_valid, List.splitOnP, List.splitOnP.go,
      String.isEmpty, String.endPos, String.utf8ByteSize, String.utf8ByteSize.go]
  exact ⟨h, handle_add_empty_guard init_app "" 0 h⟩

/-- C10: `get_stats` reports total = number of tasks, completed = number of
tasks with `completed = true`, pending = total minus completed, and a
completion rate of completed / total × 100 that is omitted exactly when
total = 0. -/
theorem get_stats_spec (app : TodoApp) :
    (get_stats app).total = app.todos.length ∧
      (get_stats app).completed =
        (app.todos.filter (fun t => t.completed)).length ∧
      (get_stats app).pending =
        (get_stats app).total - (get_stats app).completed ∧
      ((get_stats app).total = 0 → (get_stats app).completion_rate = none) ∧
      (0 < (get_stats app).total →
        (get_stats app).completion_rate =
          some (((get_stats app).completed : ℚ) /
            ((get_stats app).total : ℚ) * 100)) := by
  refine ⟨rfl, rfl, rfl, ?_, ?_⟩
  · intro h
    have h0 : app.todos.length = 0 := h
    simp [get_stats, h0]
  · intro h
    have h0 : 0 < app.todos.length := h
    simp [get_stats, h0]

/-- A store of four tasks of which exactly the first is completed. -/
def c10_app : TodoApp :=
  { todos :=
      [{ id := 1, task := "a", completed := true, priority := "medium",
         created_at := 0, completed_at := some 1 },
       { id := 2, task := "b", completed := false, priority := "medium",
         created_at := 0, completed_at := none },
       { id := 3, task := "c", completed := false, priority := "medium",
         created_at := 0, completed_at := none },
       { id := 4, task := "d", completed := false, priority := "medium",
         created_at := 0, completed_at := none }],
    file := .absent }

/-- Witness for C10: on 4 tasks with 1 completed, `get_stats` reports
total 4, completed 1, pending 3 and a completion rate of 25%. -/
theorem get_stats_spec_witness :
    (get_stats c10_app).total = 4 ∧ (get_stats c10_app).completed = 1 ∧
      (get_stats c10_app).pending = 3 ∧
      (get_stats c10_app).completion_rate = some 25 := by
  have ht : (get_stats c10_app).total = 4 := rfl
  have hc : (get_stats c10_app).completed = 1 := rfl
  have hr := (get_stats_spec c10_app).2.2.2.2 (by rw [ht]; norm_num)
  rw [ht, hc] at hr
  refine ⟨ht, hc, rfl, ?_⟩
  rw [hr]
  norm_num
